import Mathlib

/-!
Verification of the storage and replication core of the `garage` object store.

Each section embeds one part of the Rust source shallowly in Lean: byte
strings become `List Nat`, machine integers become `Nat` (all the arithmetic
involved stays far from overflow), fallible functions return `Except` or
`Option`, and stateful code is written as explicit state passing.  Parts of
the crate that the sources do not include (the `data` module's hash
function and inline threshold, the RPC response transport, the common-error
payloads) are kept as explicit parameters of the embedded functions.
-/

namespace Garage

/-! ## Cluster model basics -/

/-- Node identifiers (`Uuid` in the source, a 32-byte public key). -/
abbrev Uuid := Nat

/-- 32-byte hashes, embedded as byte lists. -/
abbrev Hash := List Nat

/-- `ConsistencyMode` from `garage_rpc::replication_mode`. -/
inductive ConsistencyMode where
  | Dangerous
  | Degraded
  | Consistent
deriving DecidableEq, Repr

/-- A committed layout version, reduced to the only data
`table/replication/fullcopy.rs` reads from it: the node list returned by
`all_nodes()`. -/
structure LayoutVersion where
  all_nodes : List Uuid
deriving DecidableEq, Repr

/-! ## `TableFullReplication::write_quorum` (fullcopy.rs, lines 64-89)

The source computes, over the live layout versions,
`min_len = min(all_nodes().len())` and
`max_quorum = max(all_nodes().len().div_euclid(2) + 1)`, warns and returns
`max(1, min_len)` when `min_len < max_quorum`, and returns `max_quorum`
otherwise.  The `.unwrap()` on an empty version list is modelled by
returning `none`. -/

def write_quorum (mode : ConsistencyMode) (versions : List LayoutVersion) : Option Nat :=
  match mode with
  | ConsistencyMode.Dangerous => some 1
  | ConsistencyMode.Degraded
  | ConsistencyMode.Consistent =>
    match (versions.map (fun x => x.all_nodes.length)).min?,
          (versions.map (fun x => x.all_nodes.length / 2 + 1)).max? with
    | some min_len, some max_quorum =>
      if min_len < max_quorum then some (max 1 min_len) else some max_quorum
    | _, _ => none

/-- `TableFullReplication::read_quorum` (fullcopy.rs, lines 50-59), for
reference: `div_ceil` on the read side. -/
def read_quorum (mode : ConsistencyMode) (read_version_nodes : List Uuid) : Nat :=
  match mode with
  | ConsistencyMode.Dangerous
  | ConsistencyMode.Degraded => 1
  | ConsistencyMode.Consistent => (read_version_nodes.length + 1) / 2

/-- C1 (amended): under `Degraded` or `Consistent`, whenever every live
layout version has at least `M` nodes, where `M` is the largest value of
`⌊n_v/2⌋ + 1` over the live versions `v`, `write_quorum` returns `M`.  The
source uses `div_euclid(2) + 1`, i.e. the floor-based majority, not the
`⌈n/2⌉ + 1` stated in the claim. -/
theorem write_quorum_formula (mode : ConsistencyMode) (versions : List LayoutVersion)
    (M : Nat)
    (hmode : mode = ConsistencyMode.Degraded ∨ mode = ConsistencyMode.Consistent)
    (hM : (versions.map (fun x => x.all_nodes.length / 2 + 1)).max? = some M)
    (hall : ∀ v ∈ versions, M ≤ v.all_nodes.length) :
    write_quorum mode versions = some M := by
  have hne : versions ≠ [] := by
    rintro rfl
    simp [List.max?] at hM
  obtain ⟨m, hm⟩ : ∃ m, (versions.map (fun x => x.all_nodes.length)).min? = some m := by
    cases h : (versions.map (fun x => x.all_nodes.length)).min? with
    | none =>
      rw [List.min?_eq_none_iff, List.map_eq_nil_iff] at h
      exact absurd h hne
    | some m => exact ⟨m, rfl⟩
  have hmem : m ∈ versions.map (fun x => x.all_nodes.length) :=
    List.min?_mem (fun a b => min_choice a b) hm
  obtain ⟨v, hv, hvm⟩ := List.mem_map.mp hmem
  have hMm : M ≤ m := hvm ▸ hall v hv
  rcases hmode with rfl | rfl <;>
    simp [write_quorum, hm, hM, Nat.not_lt.mpr hMm]

/-- Witness for `write_quorum_formula`: a single live version with three
nodes, whose floor-based majority quorum is `2`. -/
theorem write_quorum_formula_witness :
    (([LayoutVersion.mk [1, 2, 3]].map (fun x => x.all_nodes.length / 2 + 1)).max? = some 2)
    ∧ write_quorum ConsistencyMode.Consistent [LayoutVersion.mk [1, 2, 3]] = some 2 :=
  ⟨by decide,
   write_quorum_formula ConsistencyMode.Consistent [LayoutVersion.mk [1, 2, 3]] 2
     (Or.inr rfl) (by decide) (by decide)⟩

/-- C1 counterexample: with one live version of `n = 3` nodes (so every live
version has at least `⌈3/2⌉ + 1 = 3` nodes), the claim predicts quorum
`⌈3/2⌉ + 1 = 3`, but `write_quorum` returns `2`. -/
theorem write_quorum_ceil_counterexample :
    write_quorum ConsistencyMode.Consistent [LayoutVersion.mk [1, 2, 3]] = some 2
    ∧ (3 + 1) / 2 + 1 = 3
    ∧ write_quorum ConsistencyMode.Consistent [LayoutVersion.mk [1, 2, 3]] ≠ some 3 := by
  decide

/-- C2: under `Degraded` or `Consistent`, when the smallest live version's
node count is strictly below the largest per-version majority quorum,
`write_quorum` falls back to `max 1 min_len` (the source also logs a
warning at this point, a side effect outside this model). -/
theorem write_quorum_fallback (mode : ConsistencyMode) (versions : List LayoutVersion)
    (min_len max_quorum : Nat)
    (hmode : mode = ConsistencyMode.Degraded ∨ mode = ConsistencyMode.Consistent)
    (hmin : (versions.map (fun x => x.all_nodes.length)).min? = some min_len)
    (hmax : (versions.map (fun x => x.all_nodes.length / 2 + 1)).max? = some max_quorum)
    (hlt : min_len < max_quorum) :
    write_quorum mode versions = some (max 1 min_len) := by
  rcases hmode with rfl | rfl <;> simp [write_quorum, hmin, hmax, hlt]

/-- Witness for `write_quorum_fallback`: live versions of 1 and 10 nodes;
`min_len = 1 < 6 = max_quorum`, so the result is `max 1 1 = 1`. -/
theorem write_quorum_fallback_witness :
    write_quorum ConsistencyMode.Degraded
      [LayoutVersion.mk [1], LayoutVersion.mk [2, 3, 4, 5, 6, 7, 8, 9, 10, 11]] = some 1 :=
  write_quorum_fallback ConsistencyMode.Degraded
    [LayoutVersion.mk [1], LayoutVersion.mk [2, 3, 4, 5, 6, 7, 8, 9, 10, 11]]
    1 6 (Or.inl rfl) (by decide) (by decide) (by decide)

/-! ## `TableShardedReplication::sync_partitions` (sharded.rs, lines 75-105)

The source builds one `SyncPartition` per entry of
`layout.current().partitions()` with a zero placeholder `last_hash`, then
walks the vector setting `partitions[i].last_hash` to
`partitions[i+1].first_hash`, and the very last one to the all-`0xFF`
hash.  The partition enumeration and the per-hash write sets come from the
layout crate, so they enter the model as inputs. -/

def zeroHash : Hash := List.replicate 32 0

def ffHash : Hash := List.replicate 32 255

structure SyncPartition where
  partition : Nat
  first_hash : Hash
  last_hash : Hash
  storage_sets : List (List Uuid)
deriving DecidableEq, Repr

structure SyncPartitions where
  layout_version : Nat
  partitions : List SyncPartition
deriving DecidableEq, Repr

/-- The fill-in loop of `sync_partitions`: `last_hash[i] := first_hash[i+1]`,
and the all-`0xFF` hash for the final partition. -/
def fill_last_hashes : List SyncPartition → List SyncPartition
  | [] => []
  | [p] => [SyncPartition.mk p.partition p.first_hash ffHash p.storage_sets]
  | p :: q :: rest =>
    SyncPartition.mk p.partition p.first_hash q.first_hash p.storage_sets
      :: fill_last_hashes (q :: rest)

/-- `sync_partitions`, as a function of `ack_map_min()`, the
`(partition, first_hash)` pairs of `layout.current().partitions()`, and the
per-hash storage sets `write_sets(layout_versions, hash)`. -/
def sync_partitions (ack_map_min : Nat) (parts : List (Nat × Hash))
    (write_sets_of : Hash → List (List Uuid)) : SyncPartitions :=
  SyncPartitions.mk ack_map_min
    (fill_last_hashes
      (parts.map (fun pf => SyncPartition.mk pf.1 pf.2 zeroHash (write_sets_of pf.2))))

theorem fill_last_hashes_length (l : List SyncPartition) :
    (fill_last_hashes l).length = l.length := by
  induction l with
  | nil => rfl
  | cons p t ih =>
    cases t with
    | nil => rfl
    | cons q rest => simpa [fill_last_hashes] using ih

theorem fill_last_hashes_first_hash (l : List SyncPartition) (i : Nat) :
    Option.map SyncPartition.first_hash (fill_last_hashes l)[i]?
      = Option.map SyncPartition.first_hash l[i]? := by
  induction l generalizing i with
  | nil => rfl
  | cons p t ih =>
    cases t with
    | nil =>
      cases i with
      | zero => rfl
      | succ j => cases j <;> rfl
    | cons q rest =>
      cases i with
      | zero => simp [fill_last_hashes]
      | succ j => simpa [fill_last_hashes] using ih j

theorem fill_last_hashes_adjacent (l : List SyncPartition) (i : Nat)
    (h : i + 1 < l.length) :
    Option.map SyncPartition.last_hash (fill_last_hashes l)[i]?
      = Option.map SyncPartition.first_hash l[i + 1]? := by
  induction l generalizing i with
  | nil => simp at h
  | cons p t ih =>
    cases t with
    | nil => simp at h
    | cons q rest =>
      cases i with
      | zero => simp [fill_last_hashes]
      | succ j =>
        have hj : j + 1 < (q :: rest).length := by
          simpa using Nat.lt_of_succ_lt_succ h
        simpa [fill_last_hashes] using ih j hj

theorem fill_last_hashes_last (l : List SyncPartition) (h : l ≠ []) :
    Option.map SyncPartition.last_hash (fill_last_hashes l).getLast? = some ffHash := by
  induction l with
  | nil => exact absurd rfl h
  | cons p t ih =>
    cases t with
    | nil => rfl
    | cons q rest =>
      cases hfl : fill_last_hashes (q :: rest) with
      | nil =>
        have := fill_last_hashes_length (q :: rest)
        rw [hfl] at this
        simp at this
      | cons a t =>
        rw [fill_last_hashes, hfl, List.getLast?_cons_cons]
        have := ih (by simp)
        rwa [hfl] at this

/-- C10: the partition list returned by `sync_partitions` tiles the hash
space without gaps: each partition's `last_hash` is the next partition's
`first_hash`, and the final partition's `last_hash` is the all-`0xFF`
hash. -/
theorem sync_partitions_tiling (ack_map_min : Nat) (parts : List (Nat × Hash))
    (write_sets_of : Hash → List (List Uuid)) (i : Nat)
    (hi : i + 1 < (sync_partitions ack_map_min parts write_sets_of).partitions.length)
    (hne : (sync_partitions ack_map_min parts write_sets_of).partitions ≠ []) :
    (Option.map SyncPartition.last_hash
        (sync_partitions ack_map_min parts write_sets_of).partitions[i]?
      = Option.map SyncPartition.first_hash
        (sync_partitions ack_map_min parts write_sets_of).partitions[i + 1]?)
    ∧ Option.map SyncPartition.last_hash
        (sync_partitions ack_map_min parts write_sets_of).partitions.getLast?
      = some ffHash := by
  constructor
  · have hlen : i + 1
        < (parts.map (fun pf => SyncPartition.mk pf.1 pf.2 zeroHash (write_sets_of pf.2))).length := by
      have := fill_last_hashes_length
        (parts.map (fun pf => SyncPartition.mk pf.1 pf.2 zeroHash (write_sets_of pf.2)))
      simpa [sync_partitions, this] using hi
    calc Option.map SyncPartition.last_hash
          (sync_partitions ack_map_min parts write_sets_of).partitions[i]?
        = Option.map SyncPartition.first_hash
            (parts.map (fun pf => SyncPartition.mk pf.1 pf.2 zeroHash (write_sets_of pf.2)))[i + 1]? := by
          simpa [sync_partitions] using fill_last_hashes_adjacent _ i hlen
      _ = Option.map SyncPartition.first_hash
            (sync_partitions ack_map_min parts write_sets_of).partitions[i + 1]? := by
          simpa [sync_partitions] using
            (fill_last_hashes_first_hash
              (parts.map (fun pf => SyncPartition.mk pf.1 pf.2 zeroHash (write_sets_of pf.2)))
              (i + 1)).symm
  · apply fill_last_hashes_last
    intro hc
    apply hne
    simp [sync_partitions, hc, fill_last_hashes]

/-- Witness for `sync_partitions_tiling`: two partitions at hashes `h0` and
`h1`; the first's `last_hash` becomes `h1` and the second's becomes the
all-`0xFF` hash. -/
theorem sync_partitions_tiling_witness :
    Option.map SyncPartition.last_hash
        (sync_partitions 1 [(0, List.replicate 32 0), (1, List.replicate 32 128)]
          (fun _ => [])).partitions[0]?
      = Option.map SyncPartition.first_hash
        (sync_partitions 1 [(0, List.replicate 32 0), (1, List.replicate 32 128)]
          (fun _ => [])).partitions[1]? :=
  (sync_partitions_tiling 1 [(0, List.replicate 32 0), (1, List.replicate 32 128)]
    (fun _ => []) 0 (by decide) (by decide)).1

/-! ## S3 API errors (api/s3/error.rs)

The enum `Error` of the S3 front-end, with `aws_code` (lines 140-157) and
`http_status_code` (lines 162-179).  The `Common` variant delegates to
`garage_api_common::common_error::CommonError`, which is outside the given
sources; its payload type and its two methods are parameters.  Payloads
that never influence either method (`Utf8Error`, `FromUtf8Error`, XML and
range details) are embedded as plain data. -/

inductive S3Error (C : Type) where
  | Common : C → S3Error C
  | AuthorizationHeaderMalformed : String → S3Error C
  | NoSuchKey : S3Error C
  | NoSuchUpload : S3Error C
  | PreconditionFailed : S3Error C
  | InvalidPart : S3Error C
  | InvalidPartOrder : S3Error C
  | EntityTooSmall : S3Error C
  | InvalidUtf8Str : String → S3Error C
  | InvalidUtf8String : String → S3Error C
  | InvalidXml : String → S3Error C
  | InvalidRange : Nat × Nat → S3Error C
  | InvalidEncryptionAlgorithm : String → S3Error C
  | InvalidDigest : String → S3Error C
  | NotImplemented : String → S3Error C

/-- `Error::aws_code`, parametrised by `CommonError::aws_code`. -/
def aws_code {C : Type} (common_code : C → String) : S3Error C → String
  | S3Error.Common c => common_code c
  | S3Error.NoSuchKey => "NoSuchKey"
  | S3Error.NoSuchUpload => "NoSuchUpload"
  | S3Error.PreconditionFailed => "PreconditionFailed"
  | S3Error.InvalidPart => "InvalidPart"
  | S3Error.InvalidPartOrder => "InvalidPartOrder"
  | S3Error.EntityTooSmall => "EntityTooSmall"
  | S3Error.AuthorizationHeaderMalformed _ => "AuthorizationHeaderMalformed"
  | S3Error.NotImplemented _ => "NotImplemented"
  | S3Error.InvalidXml _ => "MalformedXML"
  | S3Error.InvalidRange _ => "InvalidRange"
  | S3Error.InvalidDigest _ => "InvalidDigest"
  | S3Error.InvalidUtf8Str _ => "InvalidRequest"
  | S3Error.InvalidUtf8String _ => "InvalidRequest"
  | S3Error.InvalidEncryptionAlgorithm _ => "InvalidEncryptionAlgorithmError"

/-- `<Error as ApiError>::http_status_code`, parametrised by
`CommonError::http_status_code`.  HTTP status codes are their numeric
values. -/
def http_status_code {C : Type} (common_status : C → Nat) : S3Error C → Nat
  | S3Error.Common c => common_status c
  | S3Error.NoSuchKey => 404
  | S3Error.NoSuchUpload => 404
  | S3Error.PreconditionFailed => 412
  | S3Error.InvalidRange _ => 416
  | S3Error.NotImplemented _ => 501
  | S3Error.AuthorizationHeaderMalformed _ => 400
  | S3Error.InvalidPart => 400
  | S3Error.InvalidPartOrder => 400
  | S3Error.EntityTooSmall => 400
  | S3Error.InvalidDigest _ => 400
  | S3Error.InvalidEncryptionAlgorithm _ => 400
  | S3Error.InvalidXml _ => 400
  | S3Error.InvalidUtf8Str _ => 400
  | S3Error.InvalidUtf8String _ => 400

/-- C8: `InvalidUtf8Str` and `InvalidUtf8String` are indistinguishable at
the public interface: both map to AWS code "InvalidRequest" and to HTTP
status 400, for every payload and every common-error interpretation. -/
theorem invalid_utf8_variants_conflated {C : Type} (common_code : C → String)
    (common_status : C → Nat) (e1 e2 : String) :
    aws_code common_code (S3Error.InvalidUtf8Str e1) = "InvalidRequest"
    ∧ aws_code common_code (S3Error.InvalidUtf8String e2) = "InvalidRequest"
    ∧ http_status_code common_status (S3Error.InvalidUtf8Str e1) = 400
    ∧ http_status_code common_status (S3Error.InvalidUtf8String e2) = 400 :=
  ⟨rfl, rfl, rfl, rfl⟩

/-! ## The three `uri_encode` implementations (C9)

Strings are lists of Unicode scalar values.  `utf8_bytes` is the UTF-8
encoding of one scalar value (what `format!("{}", c).bytes()` and
`c.encode_utf8(..).bytes()` iterate over); `byte_hex` is `{:02X}`. -/

/-- UTF-8 encoding of a Unicode scalar value. -/
def utf8_bytes (c : Nat) : List Nat :=
  if c < 128 then [c]
  else if c < 2048 then [192 + c / 64, 128 + c % 64]
  else if c < 65536 then [224 + c / 4096, 128 + c / 64 % 64, 128 + c % 64]
  else [240 + c / 262144, 128 + c / 4096 % 64, 128 + c / 64 % 64, 128 + c % 64]

/-- One uppercase hexadecimal digit, as a code point. -/
def hex_digit (n : Nat) : Nat := if n < 10 then 48 + n else 55 + n

/-- `{:02X}` of a byte, as two code points. -/
def byte_hex (b : Nat) : List Nat := [hex_digit (b / 16), hex_digit (b % 16)]

/-- The characters the three `uri_encode`s pass through unchanged:
`'a'..='z' | 'A'..='Z' | '0'..='9' | '_' | '-' | '~' | '.'`. -/
def is_uri_passthrough (c : Nat) : Bool :=
  (97 ≤ c && c ≤ 122) || (65 ≤ c && c ≤ 90) || (48 ≤ c && c ≤ 57)
    || c == 95 || c == 45 || c == 126 || c == 46

namespace Signature

/-- Per-character case of `uri_encode` in api/signature.rs (lines 288-307):
the default arm pushes a single `'%'` and then the concatenated hex of all
UTF-8 bytes of the character. -/
def uri_encode_char (encode_slash : Bool) (c : Nat) : List Nat :=
  if is_uri_passthrough c then [c]
  else if c == 47 then (if encode_slash then [37, 50, 70] else [47])
  else 37 :: ((utf8_bytes c).map byte_hex).flatten

/-- `uri_encode` from api/signature.rs. -/
def uri_encode (s : List Nat) (encode_slash : Bool) : List Nat :=
  (s.map (uri_encode_char encode_slash)).flatten

end Signature

namespace CommonEncoding

/-- Per-character case of `uri_encode` in api/common/encoding.rs (lines
6-23): the default arm writes `%XX` once per UTF-8 byte. -/
def uri_encode_char (encode_slash : Bool) (c : Nat) : List Nat :=
  if is_uri_passthrough c then [c]
  else if c == 47 then (if encode_slash then [37, 50, 70] else [47])
  else ((utf8_bytes c).map (fun b => 37 :: byte_hex b)).flatten

/-- `uri_encode` from api/common/encoding.rs. -/
def uri_encode (s : List Nat) (encode_slash : Bool) : List Nat :=
  (s.map (uri_encode_char encode_slash)).flatten

end CommonEncoding

namespace Encoding

/-- Per-character case of `uri_encode` in api/encoding.rs (lines 7-25): the
default arm concatenates `format!("%{:02X}", b)` per UTF-8 byte. -/
def uri_encode_char (encode_slash : Bool) (c : Nat) : List Nat :=
  if is_uri_passthrough c then [c]
  else if c == 47 then (if encode_slash then [37, 50, 70] else [47])
  else ((utf8_bytes c).map (fun b => 37 :: byte_hex b)).flatten

/-- `uri_encode` from api/encoding.rs. -/
def uri_encode (s : List Nat) (encode_slash : Bool) : List Nat :=
  (s.map (uri_encode_char encode_slash)).flatten

end Encoding

/-- C9 counterexample: on `"é"` (U+00E9, UTF-8 bytes `C3 A9`) the
signature.rs implementation yields `"%C3A9"` while the other two yield
`"%C3%A9"`. -/
theorem uri_encode_disagreement :
    Signature.uri_encode [233] true = [37, 67, 51, 65, 57]
    ∧ CommonEncoding.uri_encode [233] true = [37, 67, 51, 37, 65, 57]
    ∧ Signature.uri_encode [233] true ≠ CommonEncoding.uri_encode [233] true := by
  decide

theorem uri_encode_char_ascii_agree (encode_slash : Bool) (c : Nat) (hc : c < 128) :
    Signature.uri_encode_char encode_slash c = CommonEncoding.uri_encode_char encode_slash c := by
  unfold Signature.uri_encode_char CommonEncoding.uri_encode_char
  by_cases h1 : is_uri_passthrough c
  · simp [h1]
  · by_cases h2 : c = 47
    · simp [h1, h2]
    · have : utf8_bytes c = [c] := by simp [utf8_bytes, hc]
      simp [h1, h2, this]

/-- C9 (amended): the implementations in api/common/encoding.rs and
api/encoding.rs compute the same function on every input, and the
implementation in api/signature.rs agrees with them on strings of ASCII
characters; they differ on characters whose UTF-8 encoding has more than
one byte. -/
theorem uri_encode_agreement (s : List Nat) (encode_slash : Bool) :
    CommonEncoding.uri_encode s encode_slash = Encoding.uri_encode s encode_slash
    ∧ ((∀ c ∈ s, c < 128) →
        Signature.uri_encode s encode_slash = CommonEncoding.uri_encode s encode_slash) := by
  constructor
  · rfl
  · intro hascii
    unfold Signature.uri_encode CommonEncoding.uri_encode
    induction s with
    | nil => rfl
    | cons c t ih =>
      have hc : c < 128 := hascii c (List.mem_cons_self c t)
      have ht : ∀ x ∈ t, x < 128 := fun x hx => hascii x (List.mem_cons_of_mem c hx)
      simp only [List.map_cons, List.flatten_cons]
      rw [uri_encode_char_ascii_agree encode_slash c hc, ih ht]

/-- Witness for `uri_encode_agreement` on the ASCII string `"a/ "`. -/
theorem uri_encode_agreement_witness :
    Signature.uri_encode [97, 47, 32] true = CommonEncoding.uri_encode [97, 47, 32] true :=
  (uri_encode_agreement [97, 47, 32] true).2 (by decide)

/-! ## Fjall tree-name codec (db/fjall_adapter.rs, lines 382-431)

`encode_name` passes Unicode-alphanumeric characters and the three marks
`'_' '-' '#'` through, escapes any other character with code point at most `0xFF` as
`'$'` plus two digits drawn from `'A'..='P'`, and errors otherwise.
`decode_name` inverts the escape.  Characters are code points. -/

/-- Rust's `char::is_alphanumeric` (Unicode `Alphabetic ∪ Nd ∪ Nl ∪ No`),
reproduced on the blocks this development evaluates it on: ASCII, the
Latin-1 Supplement, and the Greek capital letters; `false` elsewhere (an
under-approximation of the full Unicode table, which no theorem below
depends on beyond these blocks). -/
def rust_is_alphanumeric (c : Nat) : Bool :=
  (48 ≤ c && c ≤ 57) || (65 ≤ c && c ≤ 90) || (97 ≤ c && c ≤ 122)
    || c == 170 || c == 178 || c == 179 || c == 181 || c == 185 || c == 186
    || (188 ≤ c && c ≤ 190) || (192 ≤ c && c ≤ 214) || (216 ≤ c && c ≤ 246)
    || (248 ≤ c && c ≤ 255)
    || (913 ≤ c && c ≤ 929) || (931 ≤ c && c ≤ 937)

/-- `encode_name`: `base = 'A' = 65`, escape marker `'$' = 36`. -/
def encode_name : List Nat → Except String (List Nat)
  | [] => Except.ok []
  | c :: rest =>
    if rust_is_alphanumeric c || c == 95 || c == 45 || c == 35 then
      (encode_name rest).map (fun r => c :: r)
    else if c ≤ 255 then
      (encode_name rest).map (fun r => 36 :: (65 + c / 16) :: (65 + c % 16) :: r)
    else
      Except.error ("table name could not be safely encoded")

/-- The `c_map` closure of `decode_name`: maps `'A'..='P'` back to `0..=15`. -/
def c_map (c : Nat) : Option Nat :=
  if 65 ≤ c && c < 65 + 16 then some (c - 65) else none

/-- `decode_name`. -/
def decode_name (l : List Nat) : Except String (List Nat) :=
  match l with
  | [] => Except.ok []
  | c :: rest =>
    if c = 36 then
      match rest with
      | hi :: lo :: rest2 =>
        match c_map hi, c_map lo with
        | some h, some lw => (decode_name rest2).map (fun r => (h * 16 + lw) :: r)
        | _, _ => Except.error ("encoded table name is invalid")
      | _ => Except.error ("encoded table name is invalid")
    else
      (decode_name rest).map (fun r => c :: r)

theorem c_map_escape_digit (n : Nat) (h : n ≤ 15) : c_map (65 + n) = some n := by
  have hb : (65 ≤ 65 + n && 65 + n < 65 + 16) = true := by
    simp only [Bool.and_eq_true, decide_eq_true_eq]
    omega
  simp only [c_map, hb, if_true]
  congr 1
  omega

/-- C6 (amended): `decode_name` inverts `encode_name` on every tree name
`encode_name` accepts, and `encode_name` accepts exactly the names whose
characters are each either of code point at most `0xFF` or
Unicode-alphanumeric (so alphanumeric characters above `0xFF` are accepted
too, contrary to the claim's second half). -/
theorem encode_decode_name_inverse (s : List Nat)
    (h : ∀ c ∈ s, c ≤ 255 ∨ rust_is_alphanumeric c = true) :
    ∃ e, encode_name s = Except.ok e ∧ decode_name e = Except.ok s := by
  induction s with
  | nil => exact ⟨[], rfl, rfl⟩
  | cons c rest ih =>
    obtain ⟨e, he, hd⟩ := ih (fun x hx => h x (List.mem_cons_of_mem c hx))
    by_cases h1 : (rust_is_alphanumeric c || c == 95 || c == 45 || c == 35) = true
    · refine ⟨c :: e, ?_, ?_⟩
      · simp [encode_name, h1, he, Except.map]
      · have hc36 : c ≠ 36 := by
          intro hc
          subst hc
          simp [rust_is_alphanumeric] at h1
        rw [decode_name.eq_def]
        simp [hc36, hd, Except.map]
    · have hc255 : c ≤ 255 := by
        rcases h c (List.mem_cons_self c rest) with h2 | h2
        · exact h2
        · exact absurd (by simp [h2]) h1
      refine ⟨36 :: (65 + c / 16) :: (65 + c % 16) :: e, ?_, ?_⟩
      · simp [encode_name, h1, hc255, he, Except.map]
      · have hhi : c_map (65 + c / 16) = some (c / 16) :=
          c_map_escape_digit (c / 16) (by omega)
        have hlo : c_map (65 + c % 16) = some (c % 16) :=
          c_map_escape_digit (c % 16) (by omega)
        have hmod : c / 16 * 16 + c % 16 = c := by omega
        rw [decode_name.eq_def]
        simp [hhi, hlo, hd, hmod, Except.map]

/-- Witness for `encode_decode_name_inverse`: the name
`"test:name@help"`-style sample `"a b$"` (characters `a`, space, `b`,
`$`), all of code point at most `0xFF`. -/
theorem encode_decode_name_inverse_witness :
    ∃ e, encode_name [97, 32, 98, 36] = Except.ok e
      ∧ decode_name e = Except.ok [97, 32, 98, 36] :=
  encode_decode_name_inverse [97, 32, 98, 36] (by decide)

/-- C6 counterexample: `'Ω'` (U+03A9, Greek capital omega) has code point
937 > 255, yet `encode_name` accepts it, because `char::is_alphanumeric`
holds for it; so `encode_name` does not return an error on every name
containing a character above `U+00FF`. -/
theorem encode_name_above_ff_counterexample :
    encode_name [937] = Except.ok [937]
    ∧ 255 < 937
    ∧ decode_name [937] = Except.ok [937] :=
  ⟨rfl, by omega, rfl⟩

/-! ## The block read path `get_block` (api_server.rs, lines 359-383)

`get_block` asks `rpc_try_call_many` (quorum 1) for the block and scans the
responses in order: the first `Message::PutBlock` whose data re-hashes to
the requested hash is returned; if none does, the function returns
`Error::Message("No valid blocks returned")`.  The `Message` enum lives in
the missing `proto` module and the hash function in the missing `data`
module; the enum is reproduced from its uses in api_server.rs plus the
spec's wire-protocol message families, and the hash function is a
parameter. -/

/-- The error enum of the missing `crate::error` module, reproduced from
the variants api_server.rs constructs and matches on. -/
inductive GarageError where
  | NotFound : GarageError
  | BadRequest : String → GarageError
  | Message : String → GarageError
deriving DecidableEq, Repr

/-- `PutBlockMessage { hash, data }`. -/
structure PutBlockMessage where
  hash : Hash
  data : List Nat
deriving DecidableEq, Repr

/-- The RPC `Message` enum (missing `proto` module); `Other` stands for the
message families of the spec that `get_block` ignores. -/
inductive Message where
  | PutBlock : PutBlockMessage → Message
  | GetBlock : Hash → Message
  | Other : Message
deriving DecidableEq, Repr

/-- `get_block`, as a function of the content-hash function (missing `data`
module), the requested hash and the RPC responses. -/
def get_block (hashFn : List Nat → Hash) (h : Hash) : List Message → Except GarageError (List Nat)
  | [] => Except.error (GarageError.Message ("No valid blocks returned"))
  | Message.PutBlock pbm :: rest =>
    if hashFn pbm.data = h then Except.ok pbm.data else get_block hashFn h rest
  | _ :: rest => get_block hashFn h rest

/-- Whether a response is a `PutBlock` whose data re-hashes to `h`. -/
def response_validates (hashFn : List Nat → Hash) (h : Hash) : Message → Bool
  | Message.PutBlock pbm => hashFn pbm.data = h
  | _ => false

/-- C3 (amended): `get_block` returns `Ok` only with bytes whose recomputed
hash equals the requested hash, and when no response re-hashes to it, the
error is `Error::Message("No valid blocks returned")`, not a `NoSuchBlock`
variant (the error enum has none). -/
theorem get_block_validates (hashFn : List Nat → Hash) (h : Hash) (resps : List Message) :
    (∀ b, get_block hashFn h resps = Except.ok b → hashFn b = h)
    ∧ ((∀ m ∈ resps, response_validates hashFn h m = false) →
        get_block hashFn h resps
          = Except.error (GarageError.Message ("No valid blocks returned"))) := by
  induction resps with
  | nil => exact ⟨fun b hb => by simp [get_block] at hb, fun _ => rfl⟩
  | cons m rest ih =>
    constructor
    · intro b hb
      match m with
      | Message.PutBlock pbm =>
        rw [get_block] at hb
        by_cases hv : hashFn pbm.data = h
        · rw [if_pos hv] at hb
          cases hb
          exact hv
        · rw [if_neg hv] at hb
          exact ih.1 b hb
      | Message.GetBlock g => exact ih.1 b hb
      | Message.Other => exact ih.1 b hb
    · intro hnone
      have hm : response_validates hashFn h m = false :=
        hnone m (List.mem_cons_self m rest)
      have hrest := ih.2 (fun x hx => hnone x (List.mem_cons_of_mem m hx))
      match m with
      | Message.PutBlock pbm =>
        have hv : ¬hashFn pbm.data = h := by
          simpa [response_validates] using hm
        rw [get_block, if_neg hv]
        exact hrest
      | Message.GetBlock g => exact hrest
      | Message.Other => exact hrest

/-- Witness for `get_block_validates`: a toy hash (length mod 256), a
requested hash no response matches; the result is the `Message` error. -/
theorem get_block_validates_witness :
    get_block (fun d => [d.length % 256]) [5]
        [Message.GetBlock [1], Message.PutBlock (PutBlockMessage.mk [9] [1, 2, 3])]
      = Except.error (GarageError.Message ("No valid blocks returned")) :=
  (get_block_validates (fun d => [d.length % 256]) [5]
      [Message.GetBlock [1], Message.PutBlock (PutBlockMessage.mk [9] [1, 2, 3])]).2
    (by decide)

/-- C3 counterexample: at a concrete input with no validating response,
`get_block` returns `Error::Message("No valid blocks returned")`; in
particular it is not the `NotFound` variant (and the error enum of the
source has no `NoSuchBlock` variant at all). -/
theorem get_block_no_such_block_counterexample :
    get_block (fun d => [d.length % 256]) [7] []
      = Except.error (GarageError.Message ("No valid blocks returned"))
    ∧ get_block (fun d => [d.length % 256]) [7] []
      ≠ Except.error GarageError.NotFound := by
  constructor
  · rfl
  · intro hc
    simp [get_block] at hc

/-! ## Object GET and DELETE (api_server.rs, lines 268-357)

`handle_delete` inserts an object carrying a single new `ObjectVersion`
with `is_complete = true` and `data = DeleteMarker`.  `handle_get` looks
the object up, selects the newest complete version
(`versions.drain(..).rev().filter(|v| v.is_complete).next()`), and returns
`Error::NotFound` when the object is absent, has no complete version, or
its newest complete version is a delete marker.  The object-table lookup,
the version-table lookup and the first-block fetch are parameters. -/

inductive ObjectVersionData where
  | DeleteMarker : ObjectVersionData
  | Inline : List Nat → ObjectVersionData
  | FirstBlock : Hash → ObjectVersionData
deriving DecidableEq, Repr

structure ObjectVersion where
  uuid : Nat
  timestamp : Nat
  mime_type : String
  size : Nat
  is_complete : Bool
  data : ObjectVersionData
deriving DecidableEq, Repr

structure Object where
  bucket : String
  key : String
  versions : List ObjectVersion
deriving DecidableEq, Repr

structure VersionBlock where
  offset : Nat
  hash : Hash
deriving DecidableEq, Repr

structure Version where
  uuid : Nat
  deleted : Bool
  blocks : List VersionBlock
  bucket : String
  key : String
deriving DecidableEq, Repr

/-- The completed delete-marker version `handle_delete` pushes. -/
def delete_marker_version (uuid timestamp : Nat) : ObjectVersion :=
  ObjectVersion.mk uuid timestamp ("application/x-delete-marker") 0 true
    ObjectVersionData.DeleteMarker

/-- `handle_delete`: the object inserted into the object table (with
`version_uuid = gen_uuid()` and `timestamp = now_msec()` as inputs). -/
def handle_delete (uuid timestamp : Nat) (bucket key : String) : Object :=
  Object.mk bucket key [delete_marker_version uuid timestamp]

/-- The responses `handle_get` can build. -/
inductive GetResponse where
  | InlineBody : String → List Nat → GetResponse
  | StreamBody : String → List (Hash × Option (List Nat)) → GetResponse
deriving DecidableEq, Repr

/-- `handle_get`, as a function of the object-table lookup result, the
version-table lookup and the block fetch.  In the `FirstBlock` branch the
source sets `blocks[0].1 = Some(first_block)`; an empty block list would
panic there, which no completed `FirstBlock` version produces. -/
def handle_get (obj : Option Object) (get_version : Nat → Option Version)
    (fetch_block : Hash → Except GarageError (List Nat)) :
    Except GarageError GetResponse :=
  match obj with
  | none => Except.error GarageError.NotFound
  | some o =>
    match (o.versions.reverse.filter (fun v => v.is_complete)).head? with
    | none => Except.error GarageError.NotFound
    | some last_v =>
      match last_v.data with
      | ObjectVersionData.DeleteMarker => Except.error GarageError.NotFound
      | ObjectVersionData.Inline bytes =>
        Except.ok (GetResponse.InlineBody last_v.mime_type bytes)
      | ObjectVersionData.FirstBlock fbh =>
        match fetch_block fbh with
        | Except.error e => Except.error e
        | Except.ok first_block =>
          match get_version last_v.uuid with
          | none => Except.error GarageError.NotFound
          | some version =>
            match version.blocks.map (fun vb => (vb.hash, (none : Option (List Nat)))) with
            | [] => Except.ok (GetResponse.StreamBody last_v.mime_type [])
            | b :: rest =>
              Except.ok (GetResponse.StreamBody last_v.mime_type
                ((b.1, some first_block) :: rest))

/-- The HTTP mapping of the missing `crate::error` module.
Modelled from the spec: `Error::http_status_code` for the core error kinds
("NoSuchKey → 404", bad requests → 400, internal errors → 500). -/
def http_status_of_error : GarageError → Nat
  | GarageError.NotFound => 404
  | GarageError.BadRequest _ => 400
  | GarageError.Message _ => 500

/-- C7: a GET whose newest complete version is the delete marker inserted
by `handle_delete` returns `NotFound` (HTTP 404), and `handle_get` also
returns `NotFound` when the object is absent or has no complete version. -/
theorem handle_get_not_found (o : Object) (uuid timestamp : Nat) (bucket key : String)
    (get_version : Nat → Option Version)
    (fetch_block : Hash → Except GarageError (List Nat)) :
    ((handle_delete uuid timestamp bucket key).versions
        = [delete_marker_version uuid timestamp])
    ∧ (delete_marker_version uuid timestamp).is_complete = true
    ∧ ((o.versions.reverse.filter (fun v => v.is_complete)).head?
          = some (delete_marker_version uuid timestamp) →
        handle_get (some o) get_version fetch_block = Except.error GarageError.NotFound)
    ∧ handle_get none get_version fetch_block = Except.error GarageError.NotFound
    ∧ (o.versions.filter (fun v => v.is_complete) = [] →
        handle_get (some o) get_version fetch_block = Except.error GarageError.NotFound)
    ∧ http_status_of_error GarageError.NotFound = 404 := by
  refine ⟨rfl, rfl, ?_, rfl, ?_, rfl⟩
  · intro hhead
    simp only [handle_get]
    rw [hhead]
    rfl
  · intro hnone
    have hrev : o.versions.reverse.filter (fun v => v.is_complete) = [] := by
      rw [List.filter_reverse, hnone, List.reverse_nil]
    simp only [handle_get]
    rw [hrev]
    rfl

/-- Witness for `handle_get_not_found`: an object holding exactly the
delete marker written by `handle_delete` of bucket `b` and key `k`. -/
theorem handle_get_not_found_witness :
    handle_get (some (handle_delete 7 1000 ("b") ("k"))) (fun _ => none)
        (fun _ => Except.error GarageError.NotFound)
      = Except.error GarageError.NotFound :=
  (handle_get_not_found (handle_delete 7 1000 ("b") ("k")) 7 1000 ("b") ("k")
      (fun _ => none) (fun _ => Except.error GarageError.NotFound)).2.2.1 (by rfl)

/-! ## KV transactions (db/fjall_adapter.rs 237-261, db/lmdb_adapter.rs 251-279)

The database is the list of open trees, each a map from byte keys to byte
values.  `transaction` runs the closure (`ITxFn::try_on`) on a fresh
transaction handle and then dispatches on the closure's `TxFnResult`:
`Ok(on_commit)` commits, `Abort` and `DbErr` roll back.

For Fjall the write transaction is an LSM memtable: a log of pending
`(tree, key, Some value | None)` entries that `commit` applies to the
keyspace in order, reads going through the log first.  For LMDB the write
transaction is a private copy-on-write view of the database that `commit`
installs.  The closure is a Lean function from what it can observe (the
base state) to its result and its final transaction state. -/

abbrev Bytes := List Nat

/-- One open tree, as a map. -/
abbrev KvTree := Bytes → Option Bytes

/-- The whole keyspace: the trees captured at transaction start, by id. -/
abbrev DbState := List KvTree

/-- Reading a tree id outside the captured slice yields the empty tree (the
adapters report `invalid tree id` before any operation is recorded). -/
def tree_get (db : DbState) (i : Nat) : KvTree :=
  (db[i]?).getD (fun _ => none)

/-- Point update of one tree map. -/
def map_update (m : KvTree) (k : Bytes) (v : Option Bytes) : KvTree :=
  fun k2 => if k2 = k then v else m k2

/-- One pending Fjall write: `tx.insert(tree, key, value)` records
`(tree, key, some value)` and `tx.remove(tree, key)` records
`(tree, key, none)`. -/
abbrev FjOp := Nat × Bytes × Option Bytes

/-- Applying one pending write to the keyspace. -/
def fjall_apply_op (db : DbState) (op : FjOp) : DbState :=
  db.set op.fst (map_update (tree_get db op.fst) op.snd.fst op.snd.snd)

/-- `WriteTransaction::commit`: apply the memtable in order. -/
def fjall_commit (db : DbState) (ops : List FjOp) : DbState :=
  ops.foldl fjall_apply_op db

/-- `FjallTx::get`: read through the memtable (latest pending write for the
key wins), falling back to the keyspace. -/
def fjall_tx_get (db : DbState) (ops : List FjOp) (i : Nat) (k : Bytes) : Option Bytes :=
  match ops.reverse.find? (fun op => op.fst == i && op.snd.fst == k) with
  | some op => op.snd.snd
  | none => tree_get db i k

/-- `TxFnResult`, the outcome the closure reports. -/
inductive TxFnResult (R : Type) where
  | Ok : R → TxFnResult R
  | Abort : TxFnResult R
  | DbErr : TxFnResult R
deriving DecidableEq, Repr

/-- `TxError<()>`: an abort with the application value `()`, or a database
error with its message. -/
inductive TxError where
  | Abort : TxError
  | Db : String → TxError
deriving DecidableEq, Repr

/-- `FjallDb::transaction`. -/
def fjall_transaction {R : Type} (db : DbState)
    (f : DbState → List FjOp → TxFnResult R × List FjOp) :
    Except TxError R × DbState :=
  match f db [] with
  | (TxFnResult.Ok oc, ops) => (Except.ok oc, fjall_commit db ops)
  | (TxFnResult.Abort, _) => (Except.error TxError.Abort, db)
  | (TxFnResult.DbErr, _) =>
    (Except.error (TxError.Db ("(this message will be discarded)")), db)

/-- `LmdbDb::transaction`: the closure transforms the private view. -/
def lmdb_transaction {R : Type} (db : DbState)
    (f : DbState → TxFnResult R × DbState) :
    Except TxError R × DbState :=
  match f db with
  | (TxFnResult.Ok oc, view) => (Except.ok oc, view)
  | (TxFnResult.Abort, _) => (Except.error TxError.Abort, db)
  | (TxFnResult.DbErr, _) =>
    (Except.error (TxError.Db ("(this message will be discarded)")), db)

theorem tree_get_apply_op_self (db : DbState) (op : FjOp) (k : Bytes)
    (hi : op.fst < db.length) :
    tree_get (fjall_apply_op db op) op.fst k
      = if k = op.snd.fst then op.snd.snd else tree_get db op.fst k := by
  unfold fjall_apply_op tree_get map_update
  rw [List.getElem?_set_eq_of_lt _ hi]
  simp

theorem tree_get_apply_op_ne (db : DbState) (op : FjOp) (i : Nat) (k : Bytes)
    (h : op.fst ≠ i) :
    tree_get (fjall_apply_op db op) i k = tree_get db i k := by
  unfold fjall_apply_op tree_get
  rw [List.getElem?_set_ne h]

theorem fjall_tx_get_cons (db : DbState) (op : FjOp) (rest : List FjOp) (i : Nat)
    (k : Bytes) (hi : i < db.length) :
    fjall_tx_get db (op :: rest) i k = fjall_tx_get (fjall_apply_op db op) rest i k := by
  unfold fjall_tx_get
  rw [List.reverse_cons, List.find?_append]
  cases hfind : rest.reverse.find? (fun o => o.fst == i && o.snd.fst == k) with
  | some o => simp
  | none =>
    simp only [Option.none_or]
    by_cases hb : (op.fst == i && op.snd.fst == k) = true
    · have h1 : List.find? (fun o => o.fst == i && o.snd.fst == k) [op] = some op := by
        simp [List.find?, hb]
      rw [h1]
      obtain ⟨hio, hkk⟩ : op.fst = i ∧ op.snd.fst = k := by simpa using hb
      rw [← hio]
      rw [tree_get_apply_op_self db op k (by rw [hio]; exact hi)]
      rw [if_pos hkk.symm]
    · have hb2 : (op.fst == i && op.snd.fst == k) = false := by
        simpa using hb
      have h1 : List.find? (fun o => o.fst == i && o.snd.fst == k) [op] = none := by
        simp only [List.find?, hb2]
      rw [h1]
      by_cases hio : op.fst = i
      · have hkne : op.snd.fst ≠ k := by
          intro hc
          rw [hc, hio] at hb2
          simp at hb2
        rw [← hio, tree_get_apply_op_self db op k (by rw [hio]; exact hi),
          if_neg (Ne.symm hkne)]
      · rw [tree_get_apply_op_ne db op i k hio]

theorem fjall_commit_get (db : DbState) (ops : List FjOp) (i : Nat) (k : Bytes)
    (hi : i < db.length) :
    tree_get (fjall_commit db ops) i k = fjall_tx_get db ops i k := by
  induction ops generalizing db with
  | nil => rfl
  | cons op rest ih =>
    have hlen : (fjall_apply_op db op).length = db.length := by
      unfold fjall_apply_op
      exact List.length_set db op.fst _
    calc tree_get (fjall_commit db (op :: rest)) i k
        = tree_get (fjall_commit (fjall_apply_op db op) rest) i k := rfl
      _ = fjall_tx_get (fjall_apply_op db op) rest i k := ih _ (by rw [hlen]; exact hi)
      _ = fjall_tx_get db (op :: rest) i k := (fjall_tx_get_cons db op rest i k hi).symm

/-- C5: KV transactions are atomic on both backends.  If the closure
returns `Ok`, the transaction commits: the final keyspace reads exactly as
the transaction handle read at the closure's end (Fjall: the memtable is
applied; LMDB: the private view is installed).  If the closure aborts or
reports a database error, the keyspace is returned unchanged. -/
theorem kv_transaction_atomic {R : Type} (db : DbState)
    (f : DbState → List FjOp → TxFnResult R × List FjOp)
    (g : DbState → TxFnResult R × DbState) :
    (∀ oc, (f db []).fst = TxFnResult.Ok oc →
      (fjall_transaction db f).fst = Except.ok oc
      ∧ (fjall_transaction db f).snd = fjall_commit db (f db []).snd
      ∧ ∀ i k, i < db.length →
          tree_get (fjall_transaction db f).snd i k = fjall_tx_get db (f db []).snd i k)
    ∧ ((f db []).fst = TxFnResult.Abort →
        (fjall_transaction db f).snd = db
        ∧ (fjall_transaction db f).fst = Except.error TxError.Abort)
    ∧ ((f db []).fst = TxFnResult.DbErr → (fjall_transaction db f).snd = db)
    ∧ (∀ oc, (g db).fst = TxFnResult.Ok oc →
        (lmdb_transaction db g).fst = Except.ok oc
        ∧ (lmdb_transaction db g).snd = (g db).snd)
    ∧ ((g db).fst = TxFnResult.Abort →
        (lmdb_transaction db g).snd = db
        ∧ (lmdb_transaction db g).fst = Except.error TxError.Abort)
    ∧ ((g db).fst = TxFnResult.DbErr → (lmdb_transaction db g).snd = db) := by
  have hfj : ∀ p : TxFnResult R × List FjOp, f db [] = p → fjall_transaction db f =
      (match p with
        | (TxFnResult.Ok oc, ops) => (Except.ok oc, fjall_commit db ops)
        | (TxFnResult.Abort, _) => (Except.error TxError.Abort, db)
        | (TxFnResult.DbErr, _) =>
          (Except.error (TxError.Db ("(this message will be discarded)")), db)) := by
    intro p hp
    unfold fjall_transaction
    rw [hp]
  have hlm : ∀ p : TxFnResult R × DbState, g db = p → lmdb_transaction db g =
      (match p with
        | (TxFnResult.Ok oc, view) => (Except.ok oc, view)
        | (TxFnResult.Abort, _) => (Except.error TxError.Abort, db)
        | (TxFnResult.DbErr, _) =>
          (Except.error (TxError.Db ("(this message will be discarded)")), db)) := by
    intro p hp
    unfold lmdb_transaction
    rw [hp]
  refine ⟨?_, ?_, ?_, ?_, ?_, ?_⟩
  · intro oc hok
    rcases hp : f db [] with ⟨res, ops⟩
    have hres : res = TxFnResult.Ok oc := by rw [hp] at hok; exact hok
    subst hres
    have htx : fjall_transaction db f = (Except.ok oc, fjall_commit db ops) := hfj _ hp
    refine ⟨by rw [htx], by rw [htx], ?_⟩
    intro i k hi
    rw [htx]
    exact fjall_commit_get db ops i k hi
  · intro hab
    rcases hp : f db [] with ⟨res, ops⟩
    have hres : res = TxFnResult.Abort := by rw [hp] at hab; exact hab
    subst hres
    have htx := hfj _ hp
    exact ⟨by rw [htx], by rw [htx]⟩
  · intro herr
    rcases hp : f db [] with ⟨res, ops⟩
    have hres : res = TxFnResult.DbErr := by rw [hp] at herr; exact herr
    subst hres
    have htx := hfj _ hp
    rw [htx]
  · intro oc hok
    rcases hp : g db with ⟨res, view⟩
    have hres : res = TxFnResult.Ok oc := by rw [hp] at hok; exact hok
    subst hres
    have htx := hlm _ hp
    exact ⟨by rw [htx], by rw [htx]⟩
  · intro hab
    rcases hp : g db with ⟨res, view⟩
    have hres : res = TxFnResult.Abort := by rw [hp] at hab; exact hab
    subst hres
    have htx := hlm _ hp
    exact ⟨by rw [htx], by rw [htx]⟩
  · intro herr
    rcases hp : g db with ⟨res, view⟩
    have hres : res = TxFnResult.DbErr := by rw [hp] at herr; exact herr
    subst hres
    have htx := hlm _ hp
    rw [htx]

/-- Witness for `kv_transaction_atomic`: a one-tree database; a Fjall
closure that inserts key `[1]` then aborts leaves the state unchanged, and
an LMDB closure that returns `Ok` commits its view. -/
theorem kv_transaction_atomic_witness :
    (fjall_transaction (R := Nat) [fun _ => none]
        (fun _ ops => (TxFnResult.Abort, ops ++ [(0, [1], some [2])]))).snd
      = [fun _ => none]
    ∧ (lmdb_transaction (R := Nat) [fun _ => none]
        (fun view => (TxFnResult.Ok 3, view))).fst = Except.ok 3 :=
  ⟨((kv_transaction_atomic (R := Nat) [fun _ => none]
      (fun _ ops => (TxFnResult.Abort, ops ++ [(0, [1], some [2])]))
      (fun view => (TxFnResult.Ok 3, view))).2.1 rfl).1,
   ((kv_transaction_atomic (R := Nat) [fun _ => none]
      (fun _ ops => (TxFnResult.Abort, ops ++ [(0, [1], some [2])]))
      (fun view => (TxFnResult.Ok 3, view))).2.2.2.1 3 rfl).1⟩

/-! ## `BodyChunker` and `handle_put` (api_server.rs, lines 107-185 and 246-265)

The chunker state is the remaining body chunks (the hyper body stream),
the internal buffer and the `read_all` flag.  `next()` first runs the fill
loop (`while !read_all && buf.len() < block_size`), then emits nothing if
the buffer is empty, the whole buffer if it is at most one block, and
exactly one block otherwise. -/

structure Chunker where
  body : List (List Nat)
  buf : List Nat
  read_all : Bool
deriving DecidableEq, Repr

/-- The fill loop of `BodyChunker::next`: pull body chunks into the buffer
until it holds at least `block_size` bytes or the body is exhausted
(which sets `read_all`).  Returns the buffer, the remaining body and the
`read_all` flag. -/
def fill_buf (B : Nat) (body : List (List Nat)) (buf : List Nat) :
    List Nat × List (List Nat) × Bool :=
  if B ≤ buf.length then (buf, body, false)
  else
    match body with
    | [] => (buf, [], true)
    | chunk :: rest => fill_buf B rest (buf ++ chunk)

/-- The emission step of `BodyChunker::next`, after the fill loop: nothing
if the buffer is empty, the whole buffer if it holds at most one block,
one block otherwise. -/
def chunker_emit (B : Nat) (s : List Nat × List (List Nat) × Bool) :
    Option (List Nat) × Chunker :=
  if s.1.length = 0 then (none, Chunker.mk s.2.1 s.1 s.2.2)
  else if s.1.length ≤ B then (some s.1, Chunker.mk s.2.1 [] s.2.2)
  else (some (s.1.take B), Chunker.mk s.2.1 (s.1.drop B) s.2.2)

/-- `BodyChunker::next`: one emitted block (or `none` at end of stream) and
the successor state.  The fill loop is skipped when `read_all` is set. -/
def chunker_next (B : Nat) (c : Chunker) : Option (List Nat) × Chunker :=
  chunker_emit B (if c.read_all then (c.buf, c.body, true) else fill_buf B c.body c.buf)

theorem chunker_next_read_all (B : Nat) (body : List (List Nat)) (buf : List Nat) :
    chunker_next B (Chunker.mk body buf true) = chunker_emit B (buf, body, true) := by
  simp [chunker_next]

theorem chunker_next_filling (B : Nat) (body : List (List Nat)) (buf : List Nat) :
    chunker_next B (Chunker.mk body buf false) = chunker_emit B (fill_buf B body buf) := by
  simp [chunker_next]

/-- All blocks the chunker emits, driven by a fuel bound (the source loops
until `next()` returns `None`; one byte of input per emitted block is a
safe bound, used with fuel `total length + 1` below). -/
def run_chunker (B : Nat) (fuel : Nat) (c : Chunker) : List (List Nat) :=
  match fuel with
  | 0 => []
  | fuel + 1 =>
    match chunker_next B c with
    | (none, _) => []
    | (some b, c2) => b :: run_chunker B fuel c2

/-- The intended chunking: blocks of `B` bytes, the last possibly shorter. -/
def chunks_of (B : Nat) : List Nat → List (List Nat)
  | [] => []
  | x :: xs => (x :: xs.take (B - 1)) :: chunks_of B (xs.drop (B - 1))
termination_by l => l.length
decreasing_by
  simp
  omega

theorem run_chunker_succ_some (B n : Nat) (c c2 : Chunker) (b : List Nat)
    (h : chunker_next B c = (some b, c2)) :
    run_chunker B (n + 1) c = b :: run_chunker B n c2 := by
  rw [run_chunker, h]

theorem run_chunker_succ_none (B n : Nat) (c c2 : Chunker)
    (h : chunker_next B c = (none, c2)) :
    run_chunker B (n + 1) c = [] := by
  rw [run_chunker, h]

theorem chunks_of_nil (B : Nat) : chunks_of B [] = [] := by
  rw [chunks_of]

theorem chunks_of_cons (B : Nat) (l : List Nat) (hB : 1 ≤ B) (hl : l ≠ []) :
    chunks_of B l = l.take B :: chunks_of B (l.drop B) := by
  match B, hB with
  | B2 + 1, _ =>
    match l with
    | x :: xs =>
      rw [chunks_of]
      simp

theorem chunks_of_flatten (B : Nat) (l : List Nat) : (chunks_of B l).flatten = l := by
  match l with
  | [] => rw [chunks_of]; rfl
  | x :: xs =>
    have ih := chunks_of_flatten B (xs.drop (B - 1))
    rw [chunks_of, List.flatten_cons, ih]
    simp [List.take_append_drop]
termination_by l.length
decreasing_by
  simp
  omega

theorem fill_buf_spec (B : Nat) (body : List (List Nat)) (buf : List Nat) :
    (fill_buf B body buf).1 ++ (fill_buf B body buf).2.1.flatten = buf ++ body.flatten
    ∧ ((fill_buf B body buf).2.2 = false → B ≤ (fill_buf B body buf).1.length)
    ∧ ((fill_buf B body buf).2.2 = true → (fill_buf B body buf).2.1 = []) := by
  induction body generalizing buf with
  | nil =>
    rw [fill_buf]
    by_cases hb : B ≤ buf.length
    · simp [hb]
    · simp [hb]
  | cons chunk rest ih =>
    rw [fill_buf]
    by_cases hb : B ≤ buf.length
    · simp [hb]
    · simp only [if_neg hb]
      obtain ⟨h1, h2, h3⟩ := ih (buf ++ chunk)
      refine ⟨?_, h2, h3⟩
      rw [h1]
      simp

/-- Emission from a drained stream (`read_all = true`): the remaining
buffer is cut into blocks of `B`. -/
theorem run_chunker_read_all (B : Nat) (hB : 1 ≤ B) :
    ∀ (fuel : Nat) (body : List (List Nat)) (buf : List Nat), buf.length + 1 ≤ fuel →
      run_chunker B fuel (Chunker.mk body buf true) = chunks_of B buf := by
  intro fuel
  induction fuel with
  | zero =>
    intro body buf h
    omega
  | succ n ih =>
    intro body buf h
    cases buf with
    | nil =>
      have hnext : chunker_next B (Chunker.mk body [] true)
          = (none, Chunker.mk body [] true) := by
        rw [chunker_next_read_all]
        simp [chunker_emit]
      rw [run_chunker_succ_none B n _ _ hnext, chunks_of_nil]
    | cons x xs =>
      by_cases hle : (x :: xs).length ≤ B
      · have hnext : chunker_next B (Chunker.mk body (x :: xs) true)
          = (some (x :: xs), Chunker.mk body [] true) := by
          rw [chunker_next_read_all]
          dsimp only [chunker_emit]
          rw [if_neg (by simp), if_pos hle]
        rw [run_chunker_succ_some B n _ _ _ hnext]
        rw [ih body [] (by simp at h ⊢; omega)]
        rw [chunks_of_cons B (x :: xs) hB (by simp)]
        rw [List.take_of_length_le hle, List.drop_eq_nil_of_le hle, chunks_of_nil]
      · have hnext : chunker_next B (Chunker.mk body (x :: xs) true)
          = (some ((x :: xs).take B), Chunker.mk body ((x :: xs).drop B) true) := by
          rw [chunker_next_read_all]
          dsimp only [chunker_emit]
          rw [if_neg (by simp), if_neg hle]
        rw [run_chunker_succ_some B n _ _ _ hnext]
        have hfuel : ((x :: xs).drop B).length + 1 ≤ n := by
          rw [List.length_drop]
          simp at h hle ⊢
          omega
        rw [ih body ((x :: xs).drop B) hfuel]
        rw [chunks_of_cons B (x :: xs) hB (by simp)]

/-- Emission from a live stream (`read_all = false`): the buffer plus the
remaining body bytes are cut into blocks of `B`. -/
theorem run_chunker_spec (B : Nat) (hB : 1 ≤ B) :
    ∀ (fuel : Nat) (body : List (List Nat)) (buf : List Nat),
      (buf ++ body.flatten).length + 1 ≤ fuel →
      run_chunker B fuel (Chunker.mk body buf false) = chunks_of B (buf ++ body.flatten) := by
  intro fuel
  induction fuel with
  | zero =>
    intro body buf h
    omega
  | succ n ih =>
    intro body buf h
    rcases hfb : fill_buf B body buf with ⟨buf2, body2, ra2⟩
    have hspec := fill_buf_spec B body buf
    rw [hfb] at hspec
    obtain ⟨hsum, hfalse, htrue⟩ := hspec
    simp only at hsum hfalse htrue
    have hlensum : buf2.length + body2.flatten.length = (buf ++ body.flatten).length := by
      have := congrArg List.length hsum
      simpa using this
    rcases hbuf2 : buf2 with _ | ⟨y, ys⟩
    · subst hbuf2
      have hra : ra2 = true := by
        cases hra2 : ra2
        · subst hra2
          have := hfalse rfl
          simp at this
          omega
        · rfl
      subst hra
      have hbody2 : body2 = [] := htrue rfl
      subst hbody2
      have hnil : buf ++ body.flatten = [] := by
        rw [← hsum]
        rfl
      have hnext : chunker_next B (Chunker.mk body buf false)
          = (none, Chunker.mk [] [] true) := by
        rw [chunker_next_filling, hfb]
        simp [chunker_emit]
      rw [run_chunker_succ_none B n _ _ hnext, hnil, chunks_of_nil]
    · subst hbuf2
      have hchunks : chunks_of B (buf ++ body.flatten)
          = (y :: ys).take B :: chunks_of B ((y :: ys).drop B ++ body2.flatten) := by
        rw [← hsum, chunks_of_cons B _ hB (by simp)]
        by_cases hble : B ≤ (y :: ys).length
        · rw [List.take_append_of_le_length hble, List.drop_append_of_le_length hble]
        · have hra : ra2 = true := by
            cases hra2 : ra2
            · subst hra2
              exact absurd (hfalse rfl) hble
            · rfl
          have hbody2 : body2 = [] := htrue hra
          subst hbody2
          simp
      rw [hchunks]
      by_cases hle : (y :: ys).length ≤ B
      · have hnext : chunker_next B (Chunker.mk body buf false)
            = (some (y :: ys), Chunker.mk body2 [] ra2) := by
          rw [chunker_next_filling, hfb]
          dsimp only [chunker_emit]
          rw [if_neg (by simp), if_pos hle]
        rw [run_chunker_succ_some B n _ _ _ hnext]
        have hdrop : (y :: ys).drop B = [] := List.drop_eq_nil_of_le hle
        rw [List.take_of_length_le hle, hdrop]
        cases hra2 : ra2
        · subst hra2
          have hfuel : (([] : List Nat) ++ body2.flatten).length + 1 ≤ n := by
            simp at h hlensum ⊢
            omega
          rw [ih body2 [] hfuel]
        · subst hra2
          have hbody2 : body2 = [] := htrue rfl
          subst hbody2
          rw [run_chunker_read_all B hB n [] [] (by simp at h hlensum ⊢; omega)]
          rfl
      · have hnext : chunker_next B (Chunker.mk body buf false)
            = (some ((y :: ys).take B), Chunker.mk body2 ((y :: ys).drop B) ra2) := by
          rw [chunker_next_filling, hfb]
          dsimp only [chunker_emit]
          rw [if_neg (by simp), if_neg hle]
        rw [run_chunker_succ_some B n _ _ _ hnext]
        cases hra2 : ra2
        · subst hra2
          have hfuel : ((y :: ys).drop B ++ body2.flatten).length + 1 ≤ n := by
            simp only [List.length_append, List.length_drop]
            simp at h hlensum hle ⊢
            omega
          rw [ih body2 ((y :: ys).drop B) hfuel]
        · subst hra2
          have hbody2 : body2 = [] := htrue rfl
          subst hbody2
          have hfuel : ((y :: ys).drop B).length + 1 ≤ n := by
            rw [List.length_drop]
            simp at h hlensum hle ⊢
            omega
          rw [run_chunker_read_all B hB n [] ((y :: ys).drop B) hfuel]
          simp

/-- What `handle_put` produces: an inline version (first block below the
inline threshold) or the block records written through `put_block_meta`. -/
inductive PutOutcome where
  | Inline : List Nat → PutOutcome
  | Blocks : List (Nat × List Nat) → PutOutcome
deriving DecidableEq, Repr

/-- The upload loop of `handle_put`: each further block is recorded at
`next_offset`, which then advances by the block's length. -/
def put_blocks_loop : Nat → List (List Nat) → List (Nat × List Nat)
  | _, [] => []
  | next_offset, b :: bs => (next_offset, b) :: put_blocks_loop (next_offset + b.length) bs

/-- `handle_put` (api_server.rs, lines 107-185), reduced to the data it
records: an empty body is a `BadRequest`, a first block shorter than
`INLINE_THRESHOLD` (a constant of the missing `data` module, passed as
`inline_threshold`) is stored inline, and otherwise every block is
recorded at offset 0, then at the running `next_offset`.  The source calls
`chunker.next()` until it returns `None`; `total length + 1` rounds of
`run_chunker` are enough for that. -/
def handle_put (inline_threshold B : Nat) (body : List (List Nat)) :
    Except GarageError PutOutcome :=
  match run_chunker B (body.flatten.length + 1) (Chunker.mk body [] false) with
  | [] => Except.error (GarageError.BadRequest ("Empty body"))
  | first_block :: rest =>
    if first_block.length < inline_threshold then
      Except.ok (PutOutcome.Inline first_block)
    else
      Except.ok (PutOutcome.Blocks
        ((0, first_block) :: put_blocks_loop first_block.length rest))

/-- C4: on a body of total length `3B + 1` (with `1 ≤ B` and the inline
threshold at most `B`), the chunker yields exactly 4 blocks whose
concatenation is the input, of lengths `B, B, B, 1`, and `handle_put`
records them at the strictly increasing offsets `0, B, 2B, 3B`. -/
theorem handle_put_chunking (it B : Nat) (body : List (List Nat))
    (hB : 1 ≤ B) (hit : it ≤ B) (hlen : body.flatten.length = 3 * B + 1) :
    (run_chunker B (body.flatten.length + 1) (Chunker.mk body [] false)).length = 4
    ∧ (run_chunker B (body.flatten.length + 1) (Chunker.mk body [] false)).flatten
        = body.flatten
    ∧ (run_chunker B (body.flatten.length + 1) (Chunker.mk body [] false)).map List.length
        = [B, B, B, 1]
    ∧ handle_put it B body
        = Except.ok (PutOutcome.Blocks
            (List.zip [0, B, 2 * B, 3 * B]
              (run_chunker B (body.flatten.length + 1) (Chunker.mk body [] false))))
    ∧ List.Chain' (fun a b => a < b) [0, B, 2 * B, 3 * B] := by
  have hfuel : (([] : List Nat) ++ body.flatten).length + 1 ≤ body.flatten.length + 1 := by
    simp
  have hrun := run_chunker_spec B hB (body.flatten.length + 1) body [] hfuel
  simp only [List.nil_append] at hrun
  have hne1 : body.flatten ≠ [] := by
    intro hc
    rw [hc] at hlen
    simp at hlen
  have hd1 : (body.flatten.drop B).length = 2 * B + 1 := by
    rw [List.length_drop, hlen]
    omega
  have hne2 : body.flatten.drop B ≠ [] := by
    intro hc
    rw [hc] at hd1
    simp at hd1
  have hd2 : ((body.flatten.drop B).drop B).length = B + 1 := by
    rw [List.length_drop, hd1]
    omega
  have hne3 : (body.flatten.drop B).drop B ≠ [] := by
    intro hc
    rw [hc] at hd2
    simp at hd2
  have hd3 : (((body.flatten.drop B).drop B).drop B).length = 1 := by
    rw [List.length_drop, hd2]
    omega
  have hlast : chunks_of B (((body.flatten.drop B).drop B).drop B)
      = [((body.flatten.drop B).drop B).drop B] := by
    have hle3 : (((body.flatten.drop B).drop B).drop B).length ≤ B := by
      rw [hd3]
      omega
    rw [chunks_of_cons B _ hB (by intro hc; rw [hc] at hd3; simp at hd3)]
    rw [List.take_of_length_le hle3, List.drop_eq_nil_of_le hle3, chunks_of_nil]
  have hexp : chunks_of B body.flatten
      = [body.flatten.take B,
         (body.flatten.drop B).take B,
         ((body.flatten.drop B).drop B).take B,
         ((body.flatten.drop B).drop B).drop B] := by
    rw [chunks_of_cons B _ hB hne1, chunks_of_cons B _ hB hne2,
      chunks_of_cons B _ hB hne3, hlast]
  have ht1 : (body.flatten.take B).length = B := by
    rw [List.length_take, hlen]
    omega
  have ht2 : ((body.flatten.drop B).take B).length = B := by
    rw [List.length_take, hd1]
    omega
  have ht3 : (((body.flatten.drop B).drop B).take B).length = B := by
    rw [List.length_take, hd2]
    omega
  rw [hrun, hexp]
  refine ⟨rfl, ?_, ?_, ?_, ?_⟩
  · rw [← hexp, chunks_of_flatten]
  · simp only [List.map_cons, List.map_nil]
    rw [ht1, ht2, ht3, hd3]
  · rw [handle_put, hrun, hexp]
    have hnotinline : ¬(body.flatten.take B).length < it := by
      rw [ht1]
      omega
    change (if (List.take B body.flatten).length < it then
        Except.ok (PutOutcome.Inline (List.take B body.flatten))
      else Except.ok (PutOutcome.Blocks
        ((0, List.take B body.flatten)
          :: put_blocks_loop (List.take B body.flatten).length
            [List.take B (List.drop B body.flatten),
             List.take B (List.drop B (List.drop B body.flatten)),
             List.drop B (List.drop B (List.drop B body.flatten))]))) = _
    rw [if_neg hnotinline, ht1]
    simp only [put_blocks_loop, List.zip_cons_cons, List.zip_nil_right]
    rw [ht2, ht3]
    have h2 : B + B = 2 * B := by omega
    have h3 : 2 * B + B = 3 * B := by omega
    rw [h2, h3]
  · simp [List.chain'_cons, List.chain'_singleton]
    omega

/-- Witness for `handle_put_chunking`: `B = 1`, inline threshold 1, body
delivered as a single 4-byte hyper frame; blocks `[5] [6] [7] [8]` recorded
at offsets `0, 1, 2, 3`. -/
theorem handle_put_chunking_witness :
    handle_put 1 1 [[5, 6, 7, 8]]
      = Except.ok (PutOutcome.Blocks [(0, [5]), (1, [6]), (2, [7]), (3, [8])]) := by
  have h := (handle_put_chunking 1 1 [[5, 6, 7, 8]] (by decide) (by decide) (by decide)).2.2.2.1
  rw [h]
  rfl

end Garage
